import Mathlib

/-!
Verification of the blog's post-identity resolution and Markdown rendering
pipeline.

Strings are modelled as `List Char`.  The definitions below are shallow
embeddings of the TypeScript library module (`lib.ts`) and of the route
guard in the post page: `jsSplit` embeds `String.prototype.split` with a
one-character separator, `jsJoin` embeds `Array.prototype.join`, `jsSlice`
embeds `String.prototype.slice` with non-negative bounds, `stripMdExt`
embeds `fn.replace(/\.md$/, "")`, `strLtB`/`strLeB` embed the default
string comparison used by `Array.prototype.sort`, `jsTrimStart` embeds
`String.prototype.trimStart`, and `pathJoin` embeds Node's `path.join`
for relative POSIX paths.  The third-party `gray-matter` parser and the
`unified` Markdown processor are parameters (`matterFn`, `render`) of the
model; the spec-described behaviour of the renderer stages that are not
part of this repository's sources is modelled separately from the spec's
words, and each such definition says so in its doc comment.
-/

namespace Blog

/-- `s.split(sep)` for a one-character separator, JavaScript semantics:
the result is never empty and splitting the empty string yields `[[]]`. -/
def jsSplit (sep : Char) : List Char → List (List Char)
  | [] => [[]]
  | c :: cs =>
    let r := jsSplit sep cs
    if c = sep then [] :: r
    else
      match r with
      | [] => [[c]]
      | p :: ps => (c :: p) :: ps

/-- `parts.join(sep)` for a one-character separator, JavaScript semantics. -/
def jsJoin (sep : Char) : List (List Char) → List Char
  | [] => []
  | [p] => p
  | p :: q :: ps => p ++ sep :: jsJoin sep (q :: ps)

/-- `s.slice(a, b)` for `0 ≤ a ≤ b`. -/
def jsSlice (s : List Char) (a b : Nat) : List Char :=
  (s.take b).drop a

/-- The characters of the literal `".md"`. -/
def mdExt : List Char := ['.', 'm', 'd']

/-- `fn.replace(/\.md$/, "")`: remove a trailing `".md"` when present. -/
def stripMdExt (fn : List Char) : List Char :=
  if fn.drop (fn.length - 3) = mdExt then fn.take (fn.length - 3) else fn

/-- JavaScript string comparison `a < b`: lexicographic on code units. -/
def strLtB : List Char → List Char → Bool
  | _, [] => false
  | [], _ :: _ => true
  | a :: as, b :: bs =>
    if a.toNat < b.toNat then true
    else if b.toNat < a.toNat then false
    else strLtB as bs

/-- The total order `Array.prototype.sort()` (no comparator) sorts by:
`a ≤ b` iff not `b < a` as strings. -/
def strLeB (a b : List Char) : Bool := !(strLtB b a)

/-- The numeric value of a digit character. -/
def dig (c : Char) : Nat := c.toNat - 48

/-- Base-10 value of a digit string. -/
def digitsVal : List Char → Nat := List.foldl (fun a c => 10 * a + dig c) 0

/-- Base-10 value accumulated from `i`. -/
def digitsValFrom (i : Nat) (l : List Char) : Nat :=
  l.foldl (fun a c => 10 * a + dig c) i

/-- The chronological key of a filename: base-10 value of its first
8 characters (the `YYYYMMDD` prefix). -/
def dateVal (fn : List Char) : Nat := digitsVal (fn.take 8)

/-- The characters `String.prototype.trimStart` strips: ECMAScript
WhiteSpace and LineTerminator code points. -/
def isJsWhitespace (c : Char) : Bool :=
  c.toNat == 9 || c.toNat == 10 || c.toNat == 11 || c.toNat == 12 ||
  c.toNat == 13 || c.toNat == 32 || c.toNat == 160 || c.toNat == 5760 ||
  (decide (8192 ≤ c.toNat) && decide (c.toNat ≤ 8202)) ||
  c.toNat == 8232 || c.toNat == 8233 || c.toNat == 8239 ||
  c.toNat == 8287 || c.toNat == 12288 || c.toNat == 65279

/-- `content.trimStart()`. -/
def jsTrimStart (s : List Char) : List Char := s.dropWhile isJsWhitespace

/-- `s.indexOf("\n")`: index of the first line break, `-1` when absent. -/
def jsIndexOfNewline (s : List Char) : Int :=
  if s.contains '\n' then ((s.findIdx (· == '\n') : Nat) : Int) else -1

/-- The intro extraction of `getPostInfosOrderedByDateDesc`:
`content.substring(0, content.trimStart().indexOf("\n") + 1)`. -/
def introOf (content : List Char) : List Char :=
  content.take (jsIndexOfNewline (jsTrimStart content) + 1).toNat

/-- The `PostId` record of `lib.ts`. -/
structure PostId where
  year : List Char
  month : List Char
  day : List Char
  slug : List Char
deriving DecidableEq

/-- The result of the third-party `gray-matter` parser: the front-matter
fields (`MatterData`) and the remaining body. -/
structure MatterOut where
  title : List Char
  prenote : List Char
  date : List Char
  content : List Char

/-- One element of the list `getPostInfosOrderedByDateDesc` returns:
`{ id, intro, ...data }`. -/
structure PostInfo where
  id : PostId
  intro : List Char
  title : List Char
  prenote : List Char
  date : List Char

/-- The value `getPostById` returns: `{ html, ...data }`. -/
structure RenderedPost where
  html : List Char
  title : List Char
  prenote : List Char
  date : List Char
deriving DecidableEq

/-- The error of a read of a missing file (`ENOENT`), the NotFound failure
of the spec's error taxonomy. -/
inductive PostError where
  | notFound
deriving DecidableEq

/-- The identifier derivation performed inside
`getPostInfosOrderedByDateDesc`:
`const [date, ...rest] = fn.replace(/\.md$/, "").split("-")`, then
`slug = rest.join("-")` and the `year`/`month`/`day` slices of `date`. -/
def derivePostId (fileName : List Char) : PostId :=
  let stem := stripMdExt fileName
  let parts := jsSplit '-' stem
  let date := parts.headD []
  let rest := parts.tail
  { year := jsSlice date 0 4
    month := jsSlice date 4 6
    day := jsSlice date 6 8
    slug := jsJoin '-' rest }

/-- The filename stem `getPostById` rebuilds from an identifier:
`` `${year}${month}${day}-${slug}` ``. -/
def postStem (id : PostId) : List Char :=
  id.year ++ id.month ++ id.day ++ '-' :: id.slug

/-- The filename `getPostById` reads: `` `${year}${month}${day}-${slug}.md` ``. -/
def postFileName (id : PostId) : List Char :=
  postStem id ++ mdExt

/-- The date key of a post identifier: digits of year, month and day. -/
def idDateVal (id : PostId) : Nat := digitsVal (id.year ++ id.month ++ id.day)

/-- The posts directory name, `postsDir = "posts"`. -/
def postsDir : List Char := ['p', 'o', 's', 't', 's']

/-- One step of POSIX path-segment normalization: drop empty and `.`
segments and resolve `..` against the (reversed) stack of kept segments. -/
def normStep (acc : List (List Char)) (seg : List Char) : List (List Char) :=
  if seg = [] ∨ seg = ['.'] then acc
  else if seg = ['.', '.'] then
    match acc with
    | [] => [['.', '.']]
    | top :: rest => if top = ['.', '.'] then seg :: acc else rest
  else seg :: acc

/-- `path.join(a, b)` for relative POSIX paths: concatenate with a slash,
then normalize empty, `.` and `..` segments as Node's `path.join` does. -/
def pathJoin (a b : List Char) : List Char :=
  match ((jsSplit '/' (a ++ '/' :: b)).foldl normStep []).reverse with
  | [] => ['.']
  | l => jsJoin '/' l

/-- A modelled filesystem: an association of paths to file contents.
`fsRead` is `fs.readFileSync`, `none` when the path is absent (`ENOENT`). -/
def fsRead (files : List (List Char × List Char)) (p : List Char) :
    Option (List Char) :=
  (files.find? (fun e => e.1 == p)).map Prod.snd

/-- `readMatter`: `matter(fs.readFileSync(path.join(postsDir, fileName)))`,
failing with NotFound when the file is missing.  `matterFn` stands for the
third-party `gray-matter` parser. -/
def readMatter (files : List (List Char × List Char))
    (matterFn : List Char → MatterOut) (fileName : List Char) :
    Except PostError MatterOut :=
  match fsRead files (pathJoin postsDir fileName) with
  | none => .error .notFound
  | some raw => .ok (matterFn raw)

/-- The path `getPostById` reads for an identifier:
`path.join("posts", year + month + day + "-" + slug + ".md")`. -/
def readPath (id : PostId) : List Char := pathJoin postsDir (postFileName id)

/-- `getPostById`: rebuild the filename, read and parse the file, render the
body (`render` stands for the `unified` processor) and return the rendered
post together with the front-matter fields. -/
def getPostById (files : List (List Char × List Char))
    (matterFn : List Char → MatterOut) (render : List Char → List Char)
    (id : PostId) : Except PostError RenderedPost :=
  match readMatter files matterFn (postFileName id) with
  | .error e => .error e
  | .ok m => .ok
      { html := render m.content
        title := m.title
        prenote := m.prenote
        date := m.date }

/-- `fs.readdirSync(postsDir)` over a modelled posts directory given as a
list of (file name, file contents) pairs. -/
def readDir (files : List (List Char × List Char)) : List (List Char) :=
  files.map Prod.fst

/-- The contents of the named file of the posts directory, as
`fs.readFileSync(path.join(postsDir, fn))` returns for a name obtained
from `readdirSync`. -/
def fileContent (files : List (List Char × List Char)) (fn : List Char) :
    List Char :=
  ((files.find? (fun e => e.1 == fn)).map Prod.snd).getD []

/-- `getPostInfosOrderedByDateDesc`: list the posts directory, sort the
names with the default sort and reverse, and map each name to its summary.
`matterFn` stands for the third-party `gray-matter` parser. -/
def getPostInfosOrderedByDateDesc (files : List (List Char × List Char))
    (matterFn : List Char → MatterOut) : List PostInfo :=
  let fileNames := ((readDir files).mergeSort strLeB).reverse
  fileNames.map (fun fn =>
    let m := matterFn (fileContent files fn)
    { id := derivePostId fn
      intro := introOf m.content
      title := m.title
      prenote := m.prenote
      date := m.date })

/-- The route guard `isValidPostId` of the post page: the path has four
segments, the first matches `^\d{4}$` and the second and third match
`^\d{2}$`; the fourth segment (the slug) is never inspected. -/
def isValidPostId (id : List (List Char)) : Bool :=
  id.length == 4 &&
  ((id.headD []).length == 4 && (id.headD []).all (·.isDigit)) &&
  ((id.getD 1 []).length == 2 && (id.getD 1 []).all (·.isDigit)) &&
  ((id.getD 2 []).length == 2 && (id.getD 2 []).all (·.isDigit))

/-- Modelled from the spec: the anchor-id normalization of the
`rehype-slug` stage, which is not part of this repository's sources.  The
heading text is lowercased, punctuation is dropped and whitespace becomes
hyphens, so that "Hello, World!" becomes `hello-world`. -/
def slugifyHeading (text : List Char) : List Char :=
  ((text.map Char.toLower).filter
    (fun c => c.isAlphanum || c == ' ' || c == '-' || c == '_')).map
    (fun c => if c = ' ' then '-' else c)

/-- Decimal numeral of `n`, most significant digit first, via the fuelled
division loop (`natCharsAux n n` always has enough fuel). -/
def natCharsAux : Nat → Nat → List Char
  | 0, _ => []
  | fuel + 1, n =>
    if n = 0 then []
    else natCharsAux fuel (n / 10) ++ [Nat.digitChar (n % 10)]

/-- Decimal numeral of a natural number (`[]` for 0). -/
def natChars (n : Nat) : List Char := natCharsAux n n

/-- Modelled from the spec: the candidate anchor ids tried for a heading
whose normalized text is `base`: `base`, then `base-1`, `base-2`, …. -/
def slugCandidate (base : List Char) : Nat → List Char
  | 0 => base
  | k + 1 => base ++ '-' :: natChars (k + 1)

/-- Modelled from the spec: on collision, append a numeric suffix until
the id is unused within the document.  Searching `used.length + 1`
candidates always finds a free one. -/
def freshSlug (base : List Char) (used : List (List Char)) : List Char :=
  match (List.range (used.length + 1)).find?
      (fun k => !(used.contains (slugCandidate base k))) with
  | some k => slugCandidate base k
  | none => slugCandidate base (used.length + 1)

/-- Modelled from the spec: assign anchor ids to the headings of one
document in order, remembering the ids already used. -/
def assignIdsGo (used : List (List Char)) : List (List Char) → List (List Char)
  | [] => []
  | t :: ts =>
    let nm := freshSlug (slugifyHeading t) used
    nm :: assignIdsGo (nm :: used) ts

/-- Modelled from the spec: the anchor ids of a document's headings. -/
def headingIds (texts : List (List Char)) : List (List Char) :=
  assignIdsGo [] texts

/-- Modelled from the spec: the `rehype-autolink-headings` stage with
`behavior: "wrap"` emits the heading with its anchor id and wraps the
heading content in a self-referencing link to `#id`. -/
def renderHeading (level : Nat) (text : List Char) : List Char :=
  let slug := slugifyHeading text
  ['<', 'h'] ++ natChars level ++ [' ', 'i', 'd', '=', '\x22'] ++ slug ++
    ['\x22', '>', '<', 'a', ' ', 'h', 'r', 'e', 'f', '=', '\x22', '#'] ++
    slug ++ ['\x22', '>'] ++ text ++
    ['<', '/', 'a', '>', '<', '/', 'h'] ++ natChars level ++ ['>']

/-- A rendering failure (the pipeline never produces one for unrecognized
code-block languages). -/
inductive RenderError where
  | fail
deriving DecidableEq

/-- Modelled from the spec: a code block emitted as plain preformatted
text, without syntax-highlighting markup. -/
def plainCodeBlock (code : List Char) : List Char :=
  ['<', 'p', 'r', 'e', '>', '<', 'c', 'o', 'd', 'e', '>'] ++ code ++
    ['<', '/', 'c', 'o', 'd', 'e', '>', '<', '/', 'p', 'r', 'e', '>']

/-- Modelled from the spec: the `rehype-pretty-code` stage highlights a
fenced code block when its language tag is recognized (`highlight` stands
for the highlighter) and otherwise degrades to plain preformatted text
without failing. -/
def renderCodeBlock (supported : List (List Char))
    (highlight : List Char → List Char → List Char)
    (lang : Option (List Char)) (code : List Char) :
    Except RenderError (List Char) :=
  match lang with
  | none => .ok (plainCodeBlock code)
  | some t =>
    if supported.contains t then .ok (highlight t code)
    else .ok (plainCodeBlock code)

/-- The spec's description of the intro extraction (claim C3), following
the spec's words: the substring of the body from its start up to and
including the first line break that occurs after leading whitespace is
stripped; `none` when the stripped body has no line break. -/
def specIntroC3 (content : List Char) : Option (List Char) :=
  let ws := content.length - (jsTrimStart content).length
  if (jsTrimStart content).contains '\n' then
    some (content.take (ws + (jsTrimStart content).findIdx (· == '\n') + 1))
  else none

/-- A concrete two-file posts directory used by concrete instances. -/
def sampleFiles : List (List Char × List Char) :=
  [(['2', '0', '2', '3', '0', '9', '2', '1', '-', 'a', '.', 'm', 'd'], ['A']),
   (['2', '0', '2', '3', '1', '1', '0', '3', '-', 'b', '.', 'm', 'd'], ['B'])]

/-- A concrete stand-in for the gray-matter parser: no front matter, the
whole file is the body. -/
def sampleMatter (raw : List Char) : MatterOut :=
  { title := [], prenote := [], date := [], content := raw }

/-- A concrete stand-in parser whose parsed bodies are newline-free. -/
def sampleMatterNoNl (raw : List Char) : MatterOut :=
  { title := [], prenote := [], date := []
    content := raw.filter (fun c => !(c == '\n')) }

theorem jsSplit_ne_nil (sep : Char) (l : List Char) : jsSplit sep l ≠ [] := by
  cases l with
  | nil => simp [jsSplit]
  | cons c cs =>
    simp only [jsSplit]
    by_cases h : c = sep
    · simp [h]
    · simp only [h, if_false]
      cases jsSplit sep cs with
      | nil => simp
      | cons p ps => simp

theorem jsSplit_append_sep (sep : Char) (d rest : List Char) (hd : sep ∉ d) :
    jsSplit sep (d ++ sep :: rest) = d :: jsSplit sep rest := by
  induction d with
  | nil => simp [jsSplit]
  | cons a as ih =>
    have ha : a ≠ sep := fun h => hd (h ▸ List.mem_cons_self a as)
    have has : sep ∉ as := fun h => hd (List.mem_cons_of_mem a h)
    simp only [List.cons_append, jsSplit, List.append_eq, ih has, ha, if_false]

theorem jsJoin_jsSplit (sep : Char) (l : List Char) :
    jsJoin sep (jsSplit sep l) = l := by
  induction l with
  | nil => simp [jsSplit, jsJoin]
  | cons c cs ih =>
    simp only [jsSplit]
    by_cases h : c = sep
    · subst h
      simp only [if_true]
      rcases hr : jsSplit c cs with _ | ⟨p, ps⟩
      · exact absurd hr (jsSplit_ne_nil c cs)
      · rw [hr] at ih
        simp [jsJoin, ih]
    · simp only [h, if_false]
      rcases hr : jsSplit sep cs with _ | ⟨p, ps⟩
      · exact absurd hr (jsSplit_ne_nil sep cs)
      · rw [hr] at ih
        cases ps with
        | nil => simp_all [jsJoin]
        | cons q qs =>
          simp only [jsJoin] at ih ⊢
          rw [List.cons_append, ih]

theorem jsSlice_concat_date (d : List Char) :
    jsSlice d 0 4 ++ jsSlice d 4 6 ++ jsSlice d 6 8 = d.take 8 := by
  have h1 : jsSlice d 0 4 = d.take 4 := by simp [jsSlice]
  have h2 : jsSlice d 4 6 = (d.drop 4).take 2 := by
    simp [jsSlice, List.drop_take]
  have h3 : jsSlice d 6 8 = (d.drop 6).take 2 := by
    simp [jsSlice, List.drop_take]
  have h4 : d.take 8 = d.take 4 ++ (d.drop 4).take 4 := List.take_add d 4 4
  have h5 : (d.drop 4).take 4 = (d.drop 4).take 2 ++ ((d.drop 4).drop 2).take 2 :=
    List.take_add (d.drop 4) 2 2
  have h6 : (d.drop 4).drop 2 = d.drop 6 := by
    rw [List.drop_drop]
  rw [h1, h2, h3, h4, h5, h6, List.append_assoc]

theorem stripMdExt_append_mdExt (stem : List Char) :
    stripMdExt (stem ++ mdExt) = stem := by
  have hlen : (stem ++ mdExt).length - 3 = stem.length := by
    simp [mdExt]
  simp only [stripMdExt, hlen, List.drop_left, if_true, List.take_left]

theorem derivePostId_eval (d slug : List Char) (hd : '-' ∉ d) :
    derivePostId ((d ++ '-' :: slug) ++ mdExt) =
      { year := d.take 4, month := (d.drop 4).take 2, day := (d.drop 6).take 2,
        slug := slug } := by
  have hsplit : jsSplit '-' (d ++ '-' :: slug) = d :: jsSplit '-' slug :=
    jsSplit_append_sep '-' d slug hd
  simp only [derivePostId]
  rw [stripMdExt_append_mdExt, hsplit]
  simp [jsSlice, List.drop_take, jsJoin_jsSplit]

/-- C1: deriving the `PostIdentifier` from a filename stem of the form
`YYYYMMDD-slug` (8-digit date prefix, separating hyphen, slug possibly
containing hyphens) and concatenating `year ++ month ++ day ++ "-" ++ slug`
reproduces the stem exactly, and `getPostById`'s rebuilt filename
`{year}{month}{day}-{slug}.md` is precisely the file's name. -/
theorem c1_identifier_roundtrip (d slug : List Char)
    (hlen : d.length = 8) (hdig : ∀ c ∈ d, c.isDigit = true) :
    postStem (derivePostId ((d ++ '-' :: slug) ++ mdExt)) = d ++ '-' :: slug ∧
    postFileName (derivePostId ((d ++ '-' :: slug) ++ mdExt)) =
      (d ++ '-' :: slug) ++ mdExt := by
  have hd : '-' ∉ d := by
    intro hmem
    have := hdig '-' hmem
    simp at this
  have heval := derivePostId_eval d slug hd
  have hstem : postStem (derivePostId ((d ++ '-' :: slug) ++ mdExt)) =
      d ++ '-' :: slug := by
    rw [heval]
    show d.take 4 ++ (d.drop 4).take 2 ++ (d.drop 6).take 2 ++ '-' :: slug
        = d ++ '-' :: slug
    have h8 : d.take 4 ++ (d.drop 4).take 2 ++ (d.drop 6).take 2 = d.take 8 := by
      have := jsSlice_concat_date d
      simpa [jsSlice, List.drop_take] using this
    have htake : d.take 8 = d := by
      rw [← hlen, List.take_length]
    rw [h8, htake]
  refine ⟨hstem, ?_⟩
  show postStem (derivePostId ((d ++ '-' :: slug) ++ mdExt)) ++ mdExt =
    (d ++ '-' :: slug) ++ mdExt
  rw [hstem]

/-- Witness for C1 at the concrete stem `20230921-EF-Core`. -/
theorem c1_identifier_roundtrip_witness :
    (['2', '0', '2', '3', '0', '9', '2', '1'] : List Char).length = 8 ∧
    (∀ c ∈ (['2', '0', '2', '3', '0', '9', '2', '1'] : List Char),
      c.isDigit = true) ∧
    postStem (derivePostId ((['2', '0', '2', '3', '0', '9', '2', '1'] ++
        '-' :: ['E', 'F', '-', 'C', 'o', 'r', 'e']) ++ mdExt)) =
      ['2', '0', '2', '3', '0', '9', '2', '1'] ++
        '-' :: ['E', 'F', '-', 'C', 'o', 'r', 'e'] ∧
    postFileName (derivePostId ((['2', '0', '2', '3', '0', '9', '2', '1'] ++
        '-' :: ['E', 'F', '-', 'C', 'o', 'r', 'e']) ++ mdExt)) =
      (['2', '0', '2', '3', '0', '9', '2', '1'] ++
        '-' :: ['E', 'F', '-', 'C', 'o', 'r', 'e']) ++ mdExt := by
  refine ⟨by decide, by decide, ?_, ?_⟩
  · exact (c1_identifier_roundtrip _ _ (by decide) (by decide)).1
  · exact (c1_identifier_roundtrip _ _ (by decide) (by decide)).2

theorem strLtB_nil_right (a : List Char) : strLtB a [] = false := by
  cases a <;> rfl

theorem strLtB_cons (p q : Char) (ps qs : List Char) :
    strLtB (p :: ps) (q :: qs) =
      if p.toNat < q.toNat then true
      else if q.toNat < p.toNat then false
      else strLtB ps qs := rfl

theorem char_toNat_injective (a b : Char) (h : a.toNat = b.toNat) : a = b := by
  rcases a with ⟨⟨av, ah⟩, ap⟩
  rcases b with ⟨⟨bv, bh⟩, bp⟩
  simp [Char.toNat, UInt32.toNat] at h
  subst h
  rfl

theorem strLtB_irrefl (a : List Char) : strLtB a a = false := by
  induction a with
  | nil => rfl
  | cons p ps ih => simp [strLtB_cons, Nat.lt_irrefl, ih]

theorem strLtB_trans :
    ∀ (a b c : List Char), strLtB a b = true → strLtB b c = true →
      strLtB a c = true := by
  intro a
  induction a with
  | nil =>
    intro b c h1 h2
    cases b with
    | nil => simp [strLtB] at h1
    | cons q qs =>
      cases c with
      | nil => rw [strLtB_nil_right] at h2; cases h2
      | cons r rs => rfl
  | cons p ps ih =>
    intro b c h1 h2
    cases b with
    | nil => rw [strLtB_nil_right] at h1; cases h1
    | cons q qs =>
      cases c with
      | nil => rw [strLtB_nil_right] at h2; cases h2
      | cons r rs =>
        rw [strLtB_cons] at h1 h2 ⊢
        rcases Nat.lt_trichotomy p.toNat q.toNat with hpq | hpq | hpq
        · rcases Nat.lt_trichotomy q.toNat r.toNat with hqr | hqr | hqr
          · rw [if_pos (by omega)]
          · rw [if_pos (by omega)]
          · rw [if_neg (by omega : ¬ q.toNat < r.toNat),
              if_pos (by omega : r.toNat < q.toNat)] at h2
            cases h2
        · rcases Nat.lt_trichotomy q.toNat r.toNat with hqr | hqr | hqr
          · rw [if_pos (by omega)]
          · rw [if_neg (by omega : ¬ p.toNat < q.toNat),
              if_neg (by omega : ¬ q.toNat < p.toNat)] at h1
            rw [if_neg (by omega : ¬ q.toNat < r.toNat),
              if_neg (by omega : ¬ r.toNat < q.toNat)] at h2
            rw [if_neg (by omega : ¬ p.toNat < r.toNat),
              if_neg (by omega : ¬ r.toNat < p.toNat)]
            exact ih qs rs h1 h2
          · rw [if_neg (by omega : ¬ q.toNat < r.toNat),
              if_pos (by omega : r.toNat < q.toNat)] at h2
            cases h2
        · rw [if_neg (by omega : ¬ p.toNat < q.toNat),
            if_pos (by omega : q.toNat < p.toNat)] at h1
          cases h1

theorem strLtB_trichotomy (a : List Char) :
    ∀ b, strLtB a b = true ∨ a = b ∨ strLtB b a = true := by
  induction a with
  | nil =>
    intro b
    cases b with
    | nil => exact Or.inr (Or.inl rfl)
    | cons q qs => exact Or.inl rfl
  | cons p ps ih =>
    intro b
    cases b with
    | nil => exact Or.inr (Or.inr rfl)
    | cons q qs =>
      rcases Nat.lt_trichotomy p.toNat q.toNat with h | h | h
      · exact Or.inl (by rw [strLtB_cons, if_pos h])
      · have hpq : p = q := char_toNat_injective p q h
        subst hpq
        rcases ih qs with h' | h' | h'
        · exact Or.inl (by rw [strLtB_cons, if_neg (Nat.lt_irrefl _),
            if_neg (Nat.lt_irrefl _)]; exact h')
        · exact Or.inr (Or.inl (by rw [h']))
        · exact Or.inr (Or.inr (by rw [strLtB_cons, if_neg (Nat.lt_irrefl _),
            if_neg (Nat.lt_irrefl _)]; exact h'))
      · exact Or.inr (Or.inr (by rw [strLtB_cons, if_pos h]))

theorem strLeB_trans (a b c : List Char) (h1 : strLeB a b = true)
    (h2 : strLeB b c = true) : strLeB a c = true := by
  simp only [strLeB, Bool.not_eq_true'] at h1 h2 ⊢
  cases hca : strLtB c a with
  | false => rfl
  | true =>
    exfalso
    rcases strLtB_trichotomy b c with h' | h' | h'
    · rw [strLtB_trans b c a h' hca] at h1; cases h1
    · subst h'; rw [hca] at h1; cases h1
    · rw [h'] at h2; cases h2

theorem strLeB_total (a b : List Char) : (strLeB a b || strLeB b a) = true := by
  simp only [strLeB, Bool.or_eq_true, Bool.not_eq_true']
  by_contra h
  push_neg at h
  obtain ⟨h1, h2⟩ := h
  have h1' : strLtB b a = true := by
    cases hv : strLtB b a with
    | false => exact absurd hv h1
    | true => rfl
  have h2' : strLtB a b = true := by
    cases hv : strLtB a b with
    | false => exact absurd hv h2
    | true => rfl
  have := strLtB_trans a b a h2' h1'
  rw [strLtB_irrefl] at this
  cases this

/-- A prefix where the two strings already differ decides the comparison. -/
theorem strLtB_append_of_ne :
    ∀ (d1 d2 r1 r2 : List Char), d1.length = d2.length → d1 ≠ d2 →
      strLtB (d1 ++ r1) (d2 ++ r2) = strLtB d1 d2 := by
  intro d1
  induction d1 with
  | nil =>
    intro d2 r1 r2 hlen hne
    cases d2 with
    | nil => exact absurd rfl hne
    | cons b bs => simp at hlen
  | cons a as ih =>
    intro d2 r1 r2 hlen hne
    cases d2 with
    | nil => simp at hlen
    | cons b bs =>
      rw [List.cons_append, List.cons_append, strLtB_cons, strLtB_cons]
      rcases Nat.lt_trichotomy a.toNat b.toNat with h | h | h
      · rw [if_pos h, if_pos h]
      · have hab : a = b := char_toNat_injective a b h
        subst hab
        have hne' : as ≠ bs := fun hh => hne (by rw [hh])
        have hlen' : as.length = bs.length := by simpa using hlen
        rw [if_neg (Nat.lt_irrefl _), if_neg (Nat.lt_irrefl _),
          if_neg (Nat.lt_irrefl _), if_neg (Nat.lt_irrefl _)]
        exact ih bs r1 r2 hlen' hne'
      · rw [if_neg (by omega : ¬ a.toNat < b.toNat), if_pos h,
          if_neg (by omega : ¬ a.toNat < b.toNat), if_pos h]

theorem isDigit_toNat (c : Char) (h : c.isDigit = true) :
    48 ≤ c.toNat ∧ c.toNat ≤ 57 := by
  simp only [Char.isDigit, Bool.and_eq_true, decide_eq_true_eq] at h
  exact ⟨h.1, h.2⟩

theorem digitsValFrom_eq (l : List Char) :
    ∀ i, digitsValFrom i l = i * 10 ^ l.length + digitsValFrom 0 l := by
  induction l with
  | nil => intro i; simp [digitsValFrom]
  | cons c cs ih =>
    intro i
    show digitsValFrom (10 * i + dig c) cs =
      i * 10 ^ (c :: cs).length + digitsValFrom (10 * 0 + dig c) cs
    rw [ih (10 * i + dig c), ih (10 * 0 + dig c), List.length_cons]
    ring

theorem digitsValFrom_lt (l : List Char) (h : ∀ c ∈ l, c.isDigit = true) :
    digitsValFrom 0 l < 10 ^ l.length := by
  induction l with
  | nil => simp [digitsValFrom]
  | cons c cs ih =>
    have hc := isDigit_toNat c (h c (List.mem_cons_self c cs))
    have hcs := ih (fun x hx => h x (List.mem_cons_of_mem c hx))
    show digitsValFrom (10 * 0 + dig c) cs < 10 ^ (c :: cs).length
    rw [digitsValFrom_eq]
    have hd : dig c < 10 := by unfold dig; omega
    calc (10 * 0 + dig c) * 10 ^ cs.length + digitsValFrom 0 cs
        < (10 * 0 + dig c) * 10 ^ cs.length + 10 ^ cs.length :=
          Nat.add_lt_add_left hcs _
      _ = (dig c + 1) * 10 ^ cs.length := by ring
      _ ≤ 10 * 10 ^ cs.length := Nat.mul_le_mul_right _ (by omega)
      _ = 10 ^ (c :: cs).length := by rw [List.length_cons]; ring

theorem digitsVal_cons (c : Char) (cs : List Char) :
    digitsVal (c :: cs) = dig c * 10 ^ cs.length + digitsVal cs := by
  show digitsValFrom (10 * 0 + dig c) cs = _
  have h0 : 10 * 0 + dig c = dig c := by omega
  rw [h0, digitsValFrom_eq]
  rfl

/-- On equal-length digit strings, lexicographic order is numeric order. -/
theorem strLtB_iff_digitsVal :
    ∀ (x y : List Char), x.length = y.length →
      (∀ c ∈ x, c.isDigit = true) → (∀ c ∈ y, c.isDigit = true) →
      (strLtB x y = true ↔ digitsVal x < digitsVal y) := by
  intro x
  induction x with
  | nil =>
    intro y hlen _ _
    cases y with
    | nil => simp [strLtB, digitsVal]
    | cons b bs => simp at hlen
  | cons a as ih =>
    intro y hlen hdx hdy
    cases y with
    | nil => simp at hlen
    | cons b bs =>
      have hlen' : as.length = bs.length := by simpa using hlen
      have hda := isDigit_toNat a (hdx a (List.mem_cons_self a as))
      have hdb := isDigit_toNat b (hdy b (List.mem_cons_self b bs))
      have hdas : ∀ c ∈ as, c.isDigit = true :=
        fun c hc => hdx c (List.mem_cons_of_mem a hc)
      have hdbs : ∀ c ∈ bs, c.isDigit = true :=
        fun c hc => hdy c (List.mem_cons_of_mem b hc)
      have hva := digitsVal_cons a as
      have hvb := digitsVal_cons b bs
      have hlta : digitsVal as < 10 ^ as.length := digitsValFrom_lt as hdas
      have hltb : digitsVal bs < 10 ^ bs.length := digitsValFrom_lt bs hdbs
      rw [strLtB_cons, hva, hvb, ← hlen']
      rcases Nat.lt_trichotomy a.toNat b.toNat with h | h | h
      · rw [if_pos h]
        simp only [true_iff]
        have hdd : dig a + 1 ≤ dig b := by unfold dig; omega
        calc dig a * 10 ^ as.length + digitsVal as
            < dig a * 10 ^ as.length + 10 ^ as.length := Nat.add_lt_add_left hlta _
          _ = (dig a + 1) * 10 ^ as.length := by ring
          _ ≤ dig b * 10 ^ as.length := Nat.mul_le_mul_right _ hdd
          _ ≤ dig b * 10 ^ as.length + digitsVal bs := Nat.le_add_right _ _
      · have hd : dig a = dig b := by unfold dig; omega
        rw [if_neg (by omega : ¬ a.toNat < b.toNat),
          if_neg (by omega : ¬ b.toNat < a.toNat), hd]
        rw [ih bs hlen' hdas hdbs]
        omega
      · rw [if_neg (by omega : ¬ a.toNat < b.toNat), if_pos h]
        simp only [Bool.false_eq_true, false_iff, not_lt]
        have hdd : dig b + 1 ≤ dig a := by unfold dig; omega
        have hltb' : digitsVal bs ≤ 10 ^ as.length := by
          rw [hlen']; exact Nat.le_of_lt hltb
        calc dig b * 10 ^ as.length + digitsVal bs
            ≤ dig b * 10 ^ as.length + 10 ^ as.length :=
            Nat.add_le_add_left hltb' _
          _ = (dig b + 1) * 10 ^ as.length := by ring
          _ ≤ dig a * 10 ^ as.length := Nat.mul_le_mul_right _ hdd
          _ ≤ dig a * 10 ^ as.length + digitsVal as := Nat.le_add_right _ _

theorem stripMdExt_take8 (fn : List Char) (h8 : 8 ≤ fn.length)
    (hdig : ∀ c ∈ fn.take 8, c.isDigit = true) :
    (stripMdExt fn).take 8 = fn.take 8 ∧ 8 ≤ (stripMdExt fn).length := by
  unfold stripMdExt
  by_cases hsuf : fn.drop (fn.length - 3) = mdExt
  · rw [if_pos hsuf]
    have hk : 8 ≤ fn.length - 3 := by
      by_contra hlt
      push_neg at hlt
      have hk8 : fn.length - 3 ≤ 8 := Nat.le_of_lt hlt
      have hsplit8 : fn.take 8 = fn.take (fn.length - 3) ++
          (fn.drop (fn.length - 3)).take (8 - (fn.length - 3)) := by
        have := List.take_add fn (fn.length - 3) (8 - (fn.length - 3))
        rwa [Nat.add_sub_cancel' hk8] at this
      have hdot : ('.' : Char) ∈ fn.take 8 := by
        rw [hsplit8, hsuf]
        refine List.mem_append_right _ ?_
        cases hm : 8 - (fn.length - 3) with
        | zero => omega
        | succ j => simp [mdExt]
      have := hdig '.' hdot
      simp at this
    constructor
    · rw [List.take_take]
      congr 1
      omega
    · rw [List.length_take]
      omega
  · rw [if_neg hsuf]
    exact ⟨rfl, h8⟩

theorem takeWhile_take_eq (p : Char → Bool) :
    ∀ (n : Nat) (l : List Char), (∀ c ∈ l.take n, p c = true) →
      n ≤ l.length → (l.takeWhile p).take n = l.take n := by
  intro n
  induction n with
  | zero => intro l _ _; simp
  | succ m ih =>
    intro l h hl
    cases l with
    | nil => simp at hl
    | cons c cs =>
      have hc : p c = true := h c (by simp [List.take_succ_cons])
      simp only [List.takeWhile_cons, hc, if_true, List.take_succ_cons]
      have hcs : ∀ x ∈ cs.take m, p x = true := by
        intro x hx
        exact h x (by rw [List.take_succ_cons]; exact List.mem_cons_of_mem c hx)
      rw [ih cs hcs (by simpa using hl)]

theorem jsSplit_headD (sep : Char) (l : List Char) :
    (jsSplit sep l).headD [] = l.takeWhile (fun c => !(c == sep)) := by
  induction l with
  | nil => simp [jsSplit]
  | cons c cs ih =>
    simp only [jsSplit]
    by_cases h : c = sep
    · subst h
      simp [List.takeWhile_cons]
    · simp only [h, if_false]
      rcases hr : jsSplit sep cs with _ | ⟨p, ps⟩
      · exact absurd hr (jsSplit_ne_nil sep cs)
      · rw [hr] at ih
        simp only [List.headD_cons] at ih ⊢
        simp [List.takeWhile_cons, h, ih]

theorem isDigit_ne_hyphen (c : Char) (h : c.isDigit = true) :
    (!(c == '-')) = true := by
  by_cases hc : c = '-'
  · subst hc
    exact absurd h (by decide)
  · simp [hc]

theorem derivePostId_dateKey (fn : List Char) (h8 : 8 ≤ fn.length)
    (hdig : ∀ c ∈ fn.take 8, c.isDigit = true) :
    (derivePostId fn).year ++ (derivePostId fn).month ++ (derivePostId fn).day
      = fn.take 8 := by
  obtain ⟨hst, hsl⟩ := stripMdExt_take8 fn h8 hdig
  have hdate : (jsSplit '-' (stripMdExt fn)).headD [] =
      (stripMdExt fn).takeWhile (fun c => !(c == '-')) :=
    jsSplit_headD '-' (stripMdExt fn)
  have hpred : ∀ c ∈ (stripMdExt fn).take 8, (!(c == '-')) = true := by
    intro c hc
    exact isDigit_ne_hyphen c (hdig c (hst ▸ hc))
  have htw : ((stripMdExt fn).takeWhile (fun c => !(c == '-'))).take 8 =
      (stripMdExt fn).take 8 :=
    takeWhile_take_eq _ 8 (stripMdExt fn) hpred hsl
  show jsSlice ((jsSplit '-' (stripMdExt fn)).headD []) 0 4 ++
      jsSlice ((jsSplit '-' (stripMdExt fn)).headD []) 4 6 ++
      jsSlice ((jsSplit '-' (stripMdExt fn)).headD []) 6 8 = fn.take 8
  rw [hdate, jsSlice_concat_date, htw, hst]

theorem dateVal_lt_of_pair (a b : List Char)
    (ha8 : 8 ≤ a.length) (hb8 : 8 ≤ b.length)
    (hda : ∀ c ∈ a.take 8, c.isDigit = true)
    (hdb : ∀ c ∈ b.take 8, c.isDigit = true)
    (hne : a.take 8 ≠ b.take 8) (hle : strLeB b a = true) :
    dateVal b < dateVal a := by
  have hla : (a.take 8).length = 8 := by
    rw [List.length_take]; omega
  have hlb : (b.take 8).length = 8 := by
    rw [List.length_take]; omega
  have hlen8 : (a.take 8).length = (b.take 8).length := by rw [hla, hlb]
  simp only [strLeB, Bool.not_eq_true'] at hle
  rcases strLtB_trichotomy (a.take 8) (b.take 8) with h | h | h
  · exfalso
    have hsplit : strLtB (a.take 8 ++ a.drop 8) (b.take 8 ++ b.drop 8) =
        strLtB (a.take 8) (b.take 8) :=
      strLtB_append_of_ne _ _ _ _ hlen8 hne
    rw [List.take_append_drop, List.take_append_drop] at hsplit
    rw [hsplit, h] at hle
    cases hle
  · exact absurd h hne
  · exact (strLtB_iff_digitsVal _ _ hlen8.symm hdb hda).mp h

/-- C2: when the filenames carry distinct zero-padded 8-digit date prefixes,
`getPostInfosOrderedByDateDesc` returns the summaries in strictly
decreasing — in particular non-increasing, newest-first — date order,
because descending lexicographic order of such filenames coincides with
reverse chronological order of the date prefixes. -/
theorem c2_summaries_date_desc (files : List (List Char × List Char))
    (matterFn : List Char → MatterOut)
    (h8 : ∀ fn ∈ readDir files, 8 ≤ fn.length)
    (hdig : ∀ fn ∈ readDir files, ∀ c ∈ fn.take 8, c.isDigit = true)
    (hdist : (readDir files).Pairwise (fun a b => a.take 8 ≠ b.take 8)) :
    ((getPostInfosOrderedByDateDesc files matterFn).map
        (fun p => idDateVal p.id)).Pairwise (· > ·) := by
  have hsorted : ((readDir files).mergeSort strLeB).Pairwise
      (fun a b => strLeB a b = true) :=
    List.sorted_mergeSort strLeB_trans strLeB_total (readDir files)
  have hperm : ((readDir files).mergeSort strLeB).Perm (readDir files) :=
    List.mergeSort_perm (readDir files) strLeB
  have hmemS : ∀ x ∈ ((readDir files).mergeSort strLeB).reverse,
      x ∈ readDir files := by
    intro x hx
    rw [List.mem_reverse] at hx
    exact hperm.mem_iff.mp hx
  have hsortedR : (((readDir files).mergeSort strLeB).reverse).Pairwise
      (fun a b => strLeB b a = true) := by
    rw [List.pairwise_reverse]
    exact hsorted
  have hdistS : ((readDir files).mergeSort strLeB).Pairwise
      (fun a b => a.take 8 ≠ b.take 8) :=
    (List.Perm.pairwise_iff (fun h => Ne.symm h) hperm).mpr hdist
  have hdistR : (((readDir files).mergeSort strLeB).reverse).Pairwise
      (fun a b => a.take 8 ≠ b.take 8) := by
    rw [List.pairwise_reverse]
    exact hdistS.imp (fun h => Ne.symm h)
  have hkey : (((readDir files).mergeSort strLeB).reverse).Pairwise
      (fun a b => dateVal b < dateVal a) := by
    refine (hsortedR.and hdistR).imp_of_mem ?_
    intro a b ha hb hab
    exact dateVal_lt_of_pair a b (h8 a (hmemS a ha)) (h8 b (hmemS b hb))
      (hdig a (hmemS a ha)) (hdig b (hmemS b hb)) hab.2 hab.1
  simp only [getPostInfosOrderedByDateDesc]
  rw [List.map_map, List.pairwise_map]
  refine hkey.imp_of_mem ?_
  intro a b ha hb hab
  have hA := derivePostId_dateKey a (h8 a (hmemS a ha)) (hdig a (hmemS a ha))
  have hB := derivePostId_dateKey b (h8 b (hmemS b hb)) (hdig b (hmemS b hb))
  show idDateVal (derivePostId a) > idDateVal (derivePostId b)
  unfold idDateVal
  rw [hA, hB]
  exact hab

/-- Witness for C2 at a concrete two-file posts directory. -/
theorem c2_summaries_date_desc_witness :
    (∀ fn ∈ readDir sampleFiles, 8 ≤ fn.length) ∧
    (∀ fn ∈ readDir sampleFiles, ∀ c ∈ fn.take 8, c.isDigit = true) ∧
    (readDir sampleFiles).Pairwise (fun a b => a.take 8 ≠ b.take 8) ∧
    ((getPostInfosOrderedByDateDesc sampleFiles sampleMatter).map
        (fun p => idDateVal p.id)).Pairwise (· > ·) := by
  refine ⟨by decide, by decide, by decide, ?_⟩
  exact c2_summaries_date_desc sampleFiles sampleMatter
    (by decide) (by decide) (by decide)

theorem take_findIdx_newline :
    ∀ (l : List Char), '\n' ∈ l →
      l.take (l.findIdx (· == '\n') + 1) =
        l.takeWhile (fun c => !(c == '\n')) ++ ['\n'] := by
  intro l
  induction l with
  | nil => intro h; cases h
  | cons c cs ih =>
    intro h
    rw [List.findIdx_cons]
    by_cases hc : c = '\n'
    · subst hc
      simp [List.takeWhile_cons]
    · have hmem : '\n' ∈ cs := by
        rcases List.mem_cons.mp h with h' | h'
        · exact absurd h'.symm hc
        · exact h'
      have hcb : (c == '\n') = false := by simp [hc]
      rw [hcb, cond_false, List.take_succ_cons, ih hmem,
        List.takeWhile_cons, hcb]
      simp

/-- C3 as stated is false on the code: for the body `"\nHello\nWorld"`
the computed intro is `"\nHello"`, which stops one character short of the
first line break that follows the stripped leading whitespace, because the
index is computed in the trimmed string but the substring is taken from
the untrimmed body. -/
theorem c3_counterexample :
    ¬ (∀ (content s : List Char), specIntroC3 content = some s →
        introOf content = s) := by
  intro h
  have := h ['\n', 'H', 'e', 'l', 'l', 'o', '\n', 'W', 'o', 'r', 'l', 'd']
    ['\n', 'H', 'e', 'l', 'l', 'o', '\n'] (by decide)
  exact absurd this (by decide)

/-- C3 (amended): the intro is the prefix of the body of length one plus
the index of the first line break in the whitespace-stripped body; in
particular, when the body has no leading whitespace the intro is exactly
the substring of the body up to and including its first line break. -/
theorem c3_intro_first_line (content : List Char)
    (hws : jsTrimStart content = content) (hnl : '\n' ∈ content) :
    introOf content =
      content.takeWhile (fun c => !(c == '\n')) ++ ['\n'] := by
  unfold introOf jsIndexOfNewline
  rw [hws]
  have hcont : content.contains '\n' = true := by simpa using hnl
  rw [if_pos hcont]
  have hcast : (((content.findIdx (· == '\n') : Nat) : Int) + 1).toNat =
      content.findIdx (· == '\n') + 1 := by omega
  rw [hcast]
  exact take_findIdx_newline content hnl

/-- Witness for the amended C3 at the body `"Hello\nWorld"`. -/
theorem c3_intro_first_line_witness :
    jsTrimStart ['H', 'e', 'l', 'l', 'o', '\n', 'W', 'o', 'r', 'l', 'd'] =
      ['H', 'e', 'l', 'l', 'o', '\n', 'W', 'o', 'r', 'l', 'd'] ∧
    '\n' ∈ (['H', 'e', 'l', 'l', 'o', '\n', 'W', 'o', 'r', 'l', 'd'] :
      List Char) ∧
    introOf ['H', 'e', 'l', 'l', 'o', '\n', 'W', 'o', 'r', 'l', 'd'] =
      (['H', 'e', 'l', 'l', 'o', '\n', 'W', 'o', 'r', 'l', 'd'] :
        List Char).takeWhile (fun c => !(c == '\n')) ++ ['\n'] := by
  refine ⟨by decide, by decide, ?_⟩
  exact c3_intro_first_line _ (by decide) (by decide)

/-- C9: a post body with no line-break character yields the empty intro
(`indexOf` returns `-1`, so `substring(0, 0)` is taken); consequently, when
no parsed body contains a line break, every summary returned by
`getPostInfosOrderedByDateDesc` has an empty intro. -/
theorem c9_no_newline_empty_intro :
    (∀ content : List Char, '\n' ∉ content → introOf content = []) ∧
    (∀ (files : List (List Char × List Char))
        (matterFn : List Char → MatterOut) (p : PostInfo),
      (∀ raw, '\n' ∉ (matterFn raw).content) →
      p ∈ getPostInfosOrderedByDateDesc files matterFn → p.intro = []) := by
  have hbase : ∀ content : List Char, '\n' ∉ content → introOf content = [] := by
    intro content h
    have hmem : '\n' ∉ jsTrimStart content :=
      fun hx => h ((List.dropWhile_sublist isJsWhitespace).subset hx)
    have hnc : (jsTrimStart content).contains '\n' = false := by
      simpa using hmem
    unfold introOf jsIndexOfNewline
    rw [hnc]
    simp
  refine ⟨hbase, ?_⟩
  intro files matterFn p hnb hp
  simp only [getPostInfosOrderedByDateDesc, List.mem_map] at hp
  obtain ⟨fn, hfn, rfl⟩ := hp
  exact hbase _ (hnb _)

/-- Witness for C9 at the newline-free body `"abc"` and at a concrete
directory whose bodies are newline-free. -/
theorem c9_no_newline_empty_intro_witness :
    ('\n' ∉ (['a', 'b', 'c'] : List Char)) ∧
    introOf ['a', 'b', 'c'] = [] ∧
    (∀ p ∈ getPostInfosOrderedByDateDesc sampleFiles sampleMatterNoNl,
      p.intro = []) := by
  refine ⟨by decide, c9_no_newline_empty_intro.1 ['a', 'b', 'c'] (by decide), ?_⟩
  intro p hp
  refine c9_no_newline_empty_intro.2 sampleFiles sampleMatterNoNl p ?_ hp
  intro raw hx
  exact absurd (List.of_mem_filter hx) (by decide)

/-- C4: when no file exists at the path `getPostById` rebuilds, it fails
with the NotFound error and never returns a (partially constructed)
rendered post. -/
theorem c4_missing_file_not_found (files : List (List Char × List Char))
    (matterFn : List Char → MatterOut) (render : List Char → List Char)
    (id : PostId) (h : fsRead files (readPath id) = none) :
    getPostById files matterFn render id = Except.error PostError.notFound ∧
    ∀ rp : RenderedPost,
      getPostById files matterFn render id ≠ Except.ok rp := by
  have hmain : getPostById files matterFn render id =
      Except.error PostError.notFound := by
    unfold getPostById readMatter
    rw [show pathJoin postsDir (postFileName id) = readPath id from rfl, h]
  refine ⟨hmain, fun rp hok => ?_⟩
  rw [hmain] at hok
  cases hok

/-- Witness for C4 at the empty filesystem. -/
theorem c4_missing_file_not_found_witness :
    fsRead []
      (readPath ⟨['2', '0', '2', '3'], ['0', '9'], ['2', '1'], ['x']⟩) =
        none ∧
    getPostById [] sampleMatter (fun s => s)
        ⟨['2', '0', '2', '3'], ['0', '9'], ['2', '1'], ['x']⟩ =
      Except.error PostError.notFound := by
  refine ⟨rfl, ?_⟩
  exact (c4_missing_file_not_found [] sampleMatter (fun s => s) _ rfl).1

theorem digitsVal_append_digit (l : List Char) (c : Char) :
    digitsVal (l ++ [c]) = 10 * digitsVal l + dig c := by
  unfold digitsVal
  rw [List.foldl_append]
  rfl

theorem dig_digitChar : ∀ d < 10, dig (Nat.digitChar d) = d := by decide

theorem digitsVal_natCharsAux :
    ∀ (fuel n : Nat), n ≤ fuel → digitsVal (natCharsAux fuel n) = n := by
  intro fuel
  induction fuel with
  | zero =>
    intro n hn
    have : n = 0 := by omega
    subst this
    rfl
  | succ f ih =>
    intro n hn
    by_cases h0 : n = 0
    · subst h0
      simp [natCharsAux, digitsVal]
    · have hdiv : n / 10 ≤ f := by
        have : n / 10 < n := Nat.div_lt_self (Nat.pos_of_ne_zero h0) (by omega)
        omega
      rw [show natCharsAux (f + 1) n =
          natCharsAux f (n / 10) ++ [Nat.digitChar (n % 10)] from by
        simp [natCharsAux, h0]]
      rw [digitsVal_append_digit, ih _ hdiv,
        dig_digitChar _ (Nat.mod_lt n (by omega))]
      omega

theorem natChars_injective (a b : Nat) (h : natChars a = natChars b) :
    a = b := by
  have ha : digitsVal (natChars a) = a := digitsVal_natCharsAux a a le_rfl
  have hb : digitsVal (natChars b) = b := digitsVal_natCharsAux b b le_rfl
  rw [← ha, ← hb, h]

theorem slugCandidate_injective (base : List Char) :
    Function.Injective (slugCandidate base) := by
  intro i j h
  match i, j with
  | 0, 0 => rfl
  | 0, k + 1 =>
    exfalso
    have := congrArg List.length h
    simp [slugCandidate] at this
  | k + 1, 0 =>
    exfalso
    have := congrArg List.length h
    simp [slugCandidate] at this
  | k + 1, j + 1 =>
    simp only [slugCandidate] at h
    have h2 := List.append_cancel_left h
    rw [List.cons.injEq] at h2
    have := natChars_injective _ _ h2.2
    omega

theorem freshSlug_not_mem (base : List Char) (used : List (List Char)) :
    freshSlug base used ∉ used := by
  have hex : ∃ k ∈ List.range (used.length + 1),
      (!(used.contains (slugCandidate base k))) = true := by
    by_contra hall
    push_neg at hall
    have hsub : (List.range (used.length + 1)).map (slugCandidate base)
        ⊆ used := by
      intro x hx
      obtain ⟨k, hk, rfl⟩ := List.mem_map.mp hx
      have hne := hall k hk
      have hcont : used.contains (slugCandidate base k) = true := by
        cases hv : used.contains (slugCandidate base k) with
        | true => rfl
        | false => exact absurd (by rw [hv]; rfl) hne
      simpa using hcont
    have hnd : ((List.range (used.length + 1)).map (slugCandidate base)).Nodup :=
      (List.nodup_range _).map (slugCandidate_injective base)
    have hle := (List.subperm_of_subset hnd hsub).length_le
    simp at hle
  obtain ⟨k, hk, hkp⟩ := hex
  have hfind : ((List.range (used.length + 1)).find?
      (fun k => !(used.contains (slugCandidate base k)))).isSome = true :=
    List.find?_isSome.mpr ⟨k, hk, hkp⟩
  obtain ⟨r, hr⟩ := Option.isSome_iff_exists.mp hfind
  have hp := List.find?_some hr
  unfold freshSlug
  rw [hr]
  intro hmem
  have hcont : used.contains (slugCandidate base r) = true := by simpa using hmem
  rw [hcont] at hp
  cases hp

theorem assignIdsGo_nodup :
    ∀ (texts used : List (List Char)),
      (assignIdsGo used texts).Nodup ∧
      ∀ x ∈ assignIdsGo used texts, x ∉ used := by
  intro texts
  induction texts with
  | nil =>
    intro used
    refine ⟨List.nodup_nil, ?_⟩
    intro x hx
    simp [assignIdsGo] at hx
  | cons t ts ih =>
    intro used
    obtain ⟨h1, h2⟩ := ih (freshSlug (slugifyHeading t) used :: used)
    have hstep : assignIdsGo used (t :: ts) =
        freshSlug (slugifyHeading t) used ::
          assignIdsGo (freshSlug (slugifyHeading t) used :: used) ts := rfl
    constructor
    · rw [hstep, List.nodup_cons]
      refine ⟨?_, h1⟩
      intro hmem
      exact (h2 _ hmem) (List.mem_cons_self _ _)
    · intro x hx
      rw [hstep] at hx
      rcases List.mem_cons.mp hx with h' | h'
      · subst h'
        exact freshSlug_not_mem _ _
      · exact fun hu => (h2 x h') (List.mem_cons_of_mem _ hu)

/-- C6 (spec-modelled renderer stage): the anchor ids assigned to the
headings of a document are pairwise distinct — on a collision a numeric
suffix is appended — and two headings with the identical text `Intro`
receive `intro` and `intro-1`. -/
theorem c6_heading_ids_unique :
    (∀ texts : List (List Char), (headingIds texts).Nodup) ∧
    headingIds [['I', 'n', 't', 'r', 'o'], ['I', 'n', 't', 'r', 'o']] =
      [['i', 'n', 't', 'r', 'o'], ['i', 'n', 't', 'r', 'o', '-', '1']] := by
  refine ⟨?_, by decide⟩
  intro texts
  exact (assignIdsGo_nodup texts []).1

/-- C7 (spec-modelled renderer stages): the heading text "Hello, World!"
is normalized to the anchor id `hello-world`, and the emitted heading
carries that id and wraps its content in a self-link to `#hello-world`. -/
theorem c7_hello_world_anchor :
    slugifyHeading
        ['H', 'e', 'l', 'l', 'o', ',', ' ', 'W', 'o', 'r', 'l', 'd', '!'] =
      ['h', 'e', 'l', 'l', 'o', '-', 'w', 'o', 'r', 'l', 'd'] ∧
    renderHeading 2
        ['H', 'e', 'l', 'l', 'o', ',', ' ', 'W', 'o', 'r', 'l', 'd', '!'] =
      ['<', 'h', '2', ' ', 'i', 'd', '=', '\x22',
       'h', 'e', 'l', 'l', 'o', '-', 'w', 'o', 'r', 'l', 'd', '\x22', '>',
       '<', 'a', ' ', 'h', 'r', 'e', 'f', '=', '\x22', '#',
       'h', 'e', 'l', 'l', 'o', '-', 'w', 'o', 'r', 'l', 'd', '\x22', '>',
       'H', 'e', 'l', 'l', 'o', ',', ' ', 'W', 'o', 'r', 'l', 'd', '!',
       '<', '/', 'a', '>', '<', '/', 'h', '2', '>'] := by
  exact ⟨by decide, by decide⟩

/-- C8 (spec-modelled renderer stage): a fenced code block whose language
tag is not recognized renders without failing, as plain preformatted text
with no syntax-highlighting markup. -/
theorem c8_unknown_lang_plain (supported : List (List Char))
    (highlight : List Char → List Char → List Char)
    (t code : List Char) (h : supported.contains t = false) :
    renderCodeBlock supported highlight (some t) code =
      Except.ok (plainCodeBlock code) := by
  have hnm : t ∉ supported := by simpa using h
  unfold renderCodeBlock
  simp [hnm]

/-- Witness for C8 at the unrecognized tag `foo`. -/
theorem c8_unknown_lang_plain_witness :
    ([['t', 's']] : List (List Char)).contains ['f', 'o', 'o'] = false ∧
    renderCodeBlock [['t', 's']] (fun _ c => c) (some ['f', 'o', 'o']) ['x'] =
      Except.ok (plainCodeBlock ['x']) := by
  refine ⟨by decide, ?_⟩
  exact c8_unknown_lang_plain _ _ _ _ (by decide)

/-- C10: `getPostById` reads exactly `path.join("posts",
year + month + day + "-" + slug + ".md")` with no validation or escaping of
any field; the route guard checks only that year is 4 digits and month and
day are 2 digits and never inspects the slug, so a slug containing `..`
segments resolves to — and reads — a file outside the posts directory. -/
theorem c10_unvalidated_slug_path_traversal :
    (∀ y m d s1 s2 : List Char,
      isValidPostId [y, m, d, s1] = isValidPostId [y, m, d, s2]) ∧
    isValidPostId [['2', '0', '2', '3'], ['0', '9'], ['2', '1'],
      ['x', '/', '.', '.', '/', '.', '.', '/', '.', '.',
       '/', 'e', 't', 'c', '/', 'p', 'a', 's', 's', 'w', 'd']] = true ∧
    readPath ⟨['2', '0', '2', '3'], ['0', '9'], ['2', '1'],
        ['x', '/', '.', '.', '/', '.', '.', '/', '.', '.',
         '/', 'e', 't', 'c', '/', 'p', 'a', 's', 's', 'w', 'd']⟩ =
      ['.', '.', '/', 'e', 't', 'c', '/',
       'p', 'a', 's', 's', 'w', 'd', '.', 'm', 'd'] ∧
    (['p', 'o', 's', 't', 's', '/'] : List Char).isPrefixOf
      (readPath ⟨['2', '0', '2', '3'], ['0', '9'], ['2', '1'],
        ['x', '/', '.', '.', '/', '.', '.', '/', '.', '.',
         '/', 'e', 't', 'c', '/', 'p', 'a', 's', 's', 'w', 'd']⟩) = false ∧
    getPostById
        [(['.', '.', '/', 'e', 't', 'c', '/',
           'p', 'a', 's', 's', 'w', 'd', '.', 'm', 'd'],
          ['S', 'E', 'C', 'R', 'E', 'T'])]
        sampleMatter (fun s => s)
        ⟨['2', '0', '2', '3'], ['0', '9'], ['2', '1'],
         ['x', '/', '.', '.', '/', '.', '.', '/', '.', '.',
          '/', 'e', 't', 'c', '/', 'p', 'a', 's', 's', 'w', 'd']⟩ =
      Except.ok ⟨['S', 'E', 'C', 'R', 'E', 'T'], [], [], []⟩ := by
  refine ⟨fun y m d s1 s2 => rfl, by decide, by decide, by decide, by rfl⟩

end Blog
